import Mathlib

/-!
Verification of the chunked streaming cache core of lumin.

Shallow embedding of `src/cache/{chunk,entry,downloader,ratelimiter,mod}.rs`.
Machine integers (`u64`) are modelled as `Nat`; arithmetic that can overflow or
underflow in the source is made explicit with release-mode wrapping helpers
(`u64Add`, `u64Sub`, `u64Mul`), and `u64` division is modelled with `checkedDiv`
(`none` = the Rust division-by-zero panic) where the divisor is not statically
nonzero. Fallible or panicking code returns `Option`.
-/

namespace Lumin

/-- Chunk size constant from `src/cache/chunk.rs` (`DEFAULT_CHUNK_SIZE = 8 * 1024 * 1024`). -/
def DEFAULT_CHUNK_SIZE : Nat := 8 * 1024 * 1024

/-- Priority classes from `src/cache/chunk.rs` (`enum ChunkPriority`), in declaration order. -/
inductive ChunkPriority
  | GracePeriod
  | Preloaded
  | FirstChunk
  | LastChunk
  | High
  | Medium
  | Low
deriving Repr, DecidableEq

/-- Rust discriminant of the `ChunkPriority` enum (the value of `priority as u64`):
variants are numbered in declaration order starting at 0. -/
def ChunkPriority.ordinal : ChunkPriority → Nat
  | .GracePeriod => 0
  | .Preloaded => 1
  | .FirstChunk => 2
  | .LastChunk => 3
  | .High => 4
  | .Medium => 5
  | .Low => 6

/-- The cache-relevant fields of `Config` (`src/config.rs`). -/
structure Config where
  cache_grace_period_secs : Nat
  chunk_preload : Option (Nat × Nat)
  cache_target_size : Nat
  cache_max_size : Nat
deriving Repr, DecidableEq

/-- The `Chunk` struct from `src/cache/chunk.rs`. `accessed_at_secs : AtomicU64` and
`cached : AtomicBool` are modelled as plain values (single-threaded embedding);
`downloading : Arc<Mutex<()>>` is modelled by `downloading_held`, whether the guard is
currently held by someone else (so `try_lock` fails exactly when it is `true`). -/
structure Chunk where
  index : Nat
  offset : Nat
  size : Nat
  accessed_at_secs : Nat
  cached : Bool
  downloading_held : Bool
deriving Repr, DecidableEq

/-- Wrapping `u64` subtraction (`a - b` in release-mode Rust), for `a, b < 2^64`. -/
def u64Sub (a b : Nat) : Nat := (a + 2 ^ 64 - b % 2 ^ 64) % 2 ^ 64

/-- Wrapping `u64` addition (`a + b` in release-mode Rust). -/
def u64Add (a b : Nat) : Nat := (a + b) % 2 ^ 64

/-- Wrapping `u64` multiplication (`a * b` in release-mode Rust). -/
def u64Mul (a b : Nat) : Nat := (a * b) % 2 ^ 64

/-- Division as Rust `u64` division: panics (`none`) on a zero divisor. -/
def checkedDiv (a b : Nat) : Option Nat := if b = 0 then none else some (a / b)

/-- Number of chunks of a file as the source computes it,
`(file_size + DEFAULT_CHUNK_SIZE - 1) / DEFAULT_CHUNK_SIZE` in `u64` arithmetic
(`CacheEntry::load`, `Chunk::get_priority`): the addition and the subtraction wrap
as in release-mode Rust, so the value diverges from `⌈file_size/C⌉` once
`file_size + DEFAULT_CHUNK_SIZE` exceeds `2^64`. -/
def totalChunks (file_size : Nat) : Nat :=
  u64Sub (u64Add file_size DEFAULT_CHUNK_SIZE) 1 / DEFAULT_CHUNK_SIZE

/-- Modelled from the spec: the mathematical chunk count `⌈file_size/C⌉` used by the
spec's rule list (for the C5 refinement comparison), in exact arithmetic. -/
def specTotalChunks (file_size : Nat) : Nat :=
  (file_size + DEFAULT_CHUNK_SIZE - 1) / DEFAULT_CHUNK_SIZE

/-- The function `get_chunk_size_from_index` from `src/cache/chunk.rs`:
returns `file_size % DEFAULT_CHUNK_SIZE` for the last index (unconditionally),
`DEFAULT_CHUNK_SIZE` otherwise; `total_chunks - 1` is `u64` subtraction. -/
def get_chunk_size_from_index (index file_size : Nat) : Nat :=
  if index = u64Sub (totalChunks file_size) 1 then file_size % DEFAULT_CHUNK_SIZE
  else DEFAULT_CHUNK_SIZE

/-- The constant `PRIORITY_RANGES` from `src/cache/chunk.rs`: inclusive percentile
ranges with their priorities, searched in order. -/
def PRIORITY_RANGES : List (Nat × Nat × ChunkPriority) :=
  [(0, 20, .High), (21, 95, .Low), (96, 100, .Medium)]

/-- The range scan at the end of `Chunk::get_priority`: first range of
`PRIORITY_RANGES` containing `percent`, `none` if no range matches (the
`panic!` branch). -/
def findPriorityRange (percent : Nat) : Option ChunkPriority :=
  (PRIORITY_RANGES.find? fun r => decide (r.1 ≤ percent) && decide (percent ≤ r.2.1)).map
    fun r => r.2.2

/-- The method `Chunk::get_priority` from `src/cache/chunk.rs`. `now` is the
`chrono::Utc::now().timestamp()` value read at the top of the function.
`none` models a panic: either the `u64` division by a zero `file_size`
(`(center * 100) / file_size`) or the final `panic!` when no percentile range
matches. `now.abs_diff(accessed_at)` is `Nat.dist`; all other `u64` arithmetic
(`total_chunks - 1`, `total_chunks - preload_end`, `offset + size / 2`,
`center * 100`) wraps as in release-mode Rust via the `u64` helpers (a debug
build would panic instead of wrapping where the operation overflows). -/
def get_priority (cfg : Config) (now : Nat) (c : Chunk) (file_size : Nat) :
    Option ChunkPriority :=
  if Nat.dist now c.accessed_at_secs < cfg.cache_grace_period_secs then
    some .GracePeriod
  else if c.index = 0 then
    some .FirstChunk
  else if c.index = u64Sub (totalChunks file_size) 1 then
    some .LastChunk
  else
    let center := u64Add c.offset (c.size / 2)
    let afterPreload : Option ChunkPriority :=
      match checkedDiv (u64Mul center 100) file_size with
      | none => none
      | some percent => findPriorityRange percent
    match cfg.chunk_preload with
    | some (preload_start, preload_end) =>
        if c.index ≤ preload_start then some .Preloaded
        else if u64Sub (totalChunks file_size) preload_end ≤ c.index then some .Preloaded
        else afterPreload
    | none => afterPreload

/-- Modelled from the claim and spec wording (for the C5 refinement comparison):
`GracePeriod` when `now − accessed_at < cache_grace_period_secs`; else `FirstChunk`
for index 0; else `LastChunk` for the last index; else `Preloaded` when
`chunk_preload = (head, tail)` is configured and `index ≤ head` or
`index ≥ total_chunks − tail`; else by the byte-center percentile
`p = (offset + size/2)·100 / file_size`: `High` for 0–20, `Low` for 21–95,
`Medium` for 96–100. -/
def claimedPriority (cfg : Config) (now : Nat) (c : Chunk) (file_size : Nat) :
    ChunkPriority :=
  if now - c.accessed_at_secs < cfg.cache_grace_period_secs then .GracePeriod
  else if c.index = 0 then .FirstChunk
  else if c.index = specTotalChunks file_size - 1 then .LastChunk
  else
    let p := (c.offset + c.size / 2) * 100 / file_size
    let percentile : ChunkPriority :=
      if p ≤ 20 then .High else if p ≤ 95 then .Low else .Medium
    match cfg.chunk_preload with
    | some (head, tail) =>
        if c.index ≤ head ∨ specTotalChunks file_size - tail ≤ c.index then .Preloaded
        else percentile
    | none => percentile

/-- Body of `Ratelimiter::wait` from `src/cache/ratelimiter.rs` after the semaphore
permit is obtained. Input: `now` (`instant_to_u64(Instant::now())`, ms) and the loaded
`ratelimited_until` value. Output: the slept duration in ms and the value of
`ratelimited_until` when the function returns. The source sleeps
`until_timestamp - now` when `now < until_timestamp`, and stores 0 only in the
branch where the deadline is already past. -/
def Ratelimiter.wait_after_permit (now until_timestamp : Nat) : Nat × Nat :=
  if 0 < until_timestamp then
    if now < until_timestamp then (until_timestamp - now, until_timestamp)
    else (0, 0)
  else (0, until_timestamp)

/-- Read-ahead tier record from `src/cache/entry.rs`. -/
structure ReadAheadTier where
  after_reading_secs : Nat
  when_secs_until_uncached : Nat
  then_buffer_secs : Nat
deriving Repr, DecidableEq

/-- Constant `READ_AHEAD_START_BYTES` from `src/cache/entry.rs`. -/
def READ_AHEAD_START_BYTES : Nat := 24 * 1024 * 1024

/-- Constant `READ_AHEAD_TARGET_BYTES` from `src/cache/entry.rs`. -/
def READ_AHEAD_TARGET_BYTES : Nat := 64 * 1024 * 1024

/-- Constant `READ_AHEAD_TIERS` from `src/cache/entry.rs`. -/
def READ_AHEAD_TIERS : List ReadAheadTier :=
  [⟨0, 10, 60⟩, ⟨30, 30, 120⟩]

/-- The method `Chunk::is_cached_or_downloading` from `src/cache/chunk.rs`:
true when the chunk is cached or its `downloading` guard cannot be acquired. -/
def is_cached_or_downloading (c : Chunk) : Bool :=
  c.cached || c.downloading_held

/-- The method `CacheEntry::get_read_ahead_chunks` from `src/cache/entry.rs`.
Outer `none` models a panic: the `u64` division `reader_bytes_read / bytes_per_sec`
when `bytes_per_sec = 0`, or the `.expect` on the tier search. Inner `none` is the
source's `None` return (read-ahead not triggered). The source's `for` loops break
at the first out-of-bounds index; since `List.get?` stays `none` past the end,
`List.range'`-driven scans are equivalent. -/
def get_read_ahead_chunks (chunks : List Chunk) (file_size duration_hint_secs : Nat)
    (current_chunk_idx reader_bytes_read : Nat) : Option (Option (List Chunk)) :=
  let params : Option (Nat × Nat) :=
    if 0 < duration_hint_secs then
      let bytes_per_sec := file_size / duration_hint_secs
      match checkedDiv reader_bytes_read bytes_per_sec with
      | none => none
      | some seconds_read =>
        match READ_AHEAD_TIERS.reverse.find?
            (fun tier => decide (tier.after_reading_secs ≤ seconds_read)) with
        | none => none
        | some tier =>
            some (bytes_per_sec * tier.when_secs_until_uncached,
              bytes_per_sec * tier.then_buffer_secs)
    else some (READ_AHEAD_START_BYTES, READ_AHEAD_TARGET_BYTES)
  match params with
  | none => none
  | some (read_ahead_trigger, read_ahead_target) =>
    let read_ahead_trigger_chunks := max (read_ahead_trigger / DEFAULT_CHUNK_SIZE) 1
    let read_ahead_target_chunks := max (read_ahead_target / DEFAULT_CHUNK_SIZE) 2
    let trigger_start_idx := current_chunk_idx + 1
    let read_ahead_triggered :=
      (List.range' trigger_start_idx read_ahead_trigger_chunks).any fun i =>
        match chunks.get? i with
        | none => false
        | some c => !(is_cached_or_downloading c)
    if read_ahead_triggered then
      some (some
        (((List.range' trigger_start_idx read_ahead_target_chunks).filterMap
            fun i => chunks.get? i).filter
          fun c => !(is_cached_or_downloading c)))
    else some none

/-- Comparator of the `all_chunks.sort_by` call in `Cache::start_sweeper`
(`src/cache/mod.rs`): ascending by `priority as u64`, ties broken ascending by
`accessed_at_secs`, as a boolean `le` for a stable sort (Rust `sort_by` is stable;
`List.insertionSort` below is stable for this total preorder, so both produce the
same list). -/
def sweepLE (a b : Chunk × ChunkPriority) : Bool :=
  a.2.ordinal < b.2.ordinal ||
    (a.2.ordinal = b.2.ordinal && a.1.accessed_at_secs ≤ b.1.accessed_at_secs)

/-- Collection loop of `Cache::start_sweeper` over one entry's chunks: keep cached
chunks, paired with `get_priority(file.size)`; `none` if `get_priority` panics. -/
def rankEntryChunks (cfg : Config) (now file_size : Nat) :
    List Chunk → Option (List (Chunk × ChunkPriority))
  | [] => some []
  | c :: rest =>
    if c.cached then
      match get_priority cfg now c file_size, rankEntryChunks cfg now file_size rest with
      | some p, some l => some ((c, p) :: l)
      | _, _ => none
    else rankEntryChunks cfg now file_size rest

/-- Collection of `all_chunks` in `Cache::start_sweeper` across entries (each entry
given as its file size with its chunk list, in iteration order). -/
def sweepRank (cfg : Config) (now : Nat) :
    List (Nat × List Chunk) → Option (List (Chunk × ChunkPriority))
  | [] => some []
  | (fs, cs) :: rest =>
    match rankEntryChunks cfg now fs cs, sweepRank cfg now rest with
    | some a, some b => some (a ++ b)
    | _, _ => none

/-- Eviction loop of `Cache::start_sweeper`: walk the sorted list, `try_remove` each
chunk (fails without removing when the `downloading` guard is held; every ranked
chunk is cached by construction, so the not-cached bail of `try_remove` is
unreachable), subtract removed sizes from the running total and stop as soon as it
drops below `cache_target_size`. Returns the removed chunks in order. -/
def sweepEvict (target : Nat) : Nat → List (Chunk × ChunkPriority) → List Chunk
  | _, [] => []
  | total, (c, _) :: rest =>
    if c.downloading_held then sweepEvict target total rest
    else
      let total' := total - c.size
      if total' < target then [c]
      else c :: sweepEvict target total' rest

/-- One pass of the sweeper body in `Cache::start_sweeper` (`src/cache/mod.rs`,
after the per-entry DB liveness handling): rank cached chunks, and when the total
reaches `cache_max_size`, sort by `sweepLE` and evict greedily. `none` models a
`get_priority` panic; `some []` is the below-threshold early `continue`. -/
def sweepOnce (cfg : Config) (now : Nat) (entries : List (Nat × List Chunk)) :
    Option (List Chunk) :=
  match sweepRank cfg now entries with
  | none => none
  | some ranked =>
    let total := (ranked.map fun rc => rc.1.size).sum
    if total < cfg.cache_max_size then some []
    else
      some (sweepEvict cfg.cache_target_size total
        (List.insertionSort (fun a b => sweepLE a b = true) ranked))

/-- Sweep counterexample configuration: grace 300 s, no preload, target 8 MiB,
max 8 MiB + 5 GB (satisfying the `cache_target_size + 5000000000 ≤ cache_max_size`
startup validation in `src/config.rs`). -/
def sweepCfg : Config := ⟨300, none, 8388608, 5008388608⟩

/-- Sweep counterexample file size: 599 chunks, the last 1000 bytes long. -/
def sweepFileSize : Nat := 598 * DEFAULT_CHUNK_SIZE + 1000

/-- Sweep counterexample chunks: the entry's chunk list as `CacheEntry::load` builds
it, all cached, all last accessed at time 0, no guard held. -/
def sweepChunks : List Chunk :=
  (List.range 599).map fun i =>
    ⟨i, i * DEFAULT_CHUNK_SIZE, get_chunk_size_from_index i sweepFileSize, 0, true, false⟩

section SupportLemmas

/-- Wrapping subtraction agrees with truncated subtraction in the non-wrapping range. -/
theorem u64Sub_eq_sub {a b : Nat} (hba : b ≤ a) (ha : a < 2 ^ 64) :
    u64Sub a b = a - b := by
  have hb : b % 2 ^ 64 = b := Nat.mod_eq_of_lt (lt_of_le_of_lt hba ha)
  unfold u64Sub
  rw [hb]
  omega

/-- The spec's chunk count never exceeds the file size (for `DEFAULT_CHUNK_SIZE ≥ 1`). -/
theorem specTotalChunks_le (file_size : Nat) : specTotalChunks file_size ≤ file_size := by
  unfold specTotalChunks DEFAULT_CHUNK_SIZE
  omega

/-- The source's wrapping chunk-count computation agrees with the spec's exact
`⌈file_size/C⌉` as long as `file_size + DEFAULT_CHUNK_SIZE` does not overflow. -/
theorem totalChunks_eq_spec {file_size : Nat}
    (h : file_size + DEFAULT_CHUNK_SIZE ≤ 2 ^ 64) :
    totalChunks file_size = specTotalChunks file_size := by
  have h2p : (2 : Nat) ^ 64 = 18446744073709551616 := by norm_num
  unfold totalChunks specTotalChunks u64Sub u64Add
  unfold DEFAULT_CHUNK_SIZE at h ⊢
  rw [h2p]
  rw [h2p] at h
  omega

/-- The percentile range scan matches the claimed three-way classification for any
percentile value of at most 100. -/
theorem findPriorityRange_eq {p : Nat} (hp : p ≤ 100) :
    findPriorityRange p =
      some (if p ≤ 20 then .High else if p ≤ 95 then .Low else .Medium) := by
  by_cases h1 : p ≤ 20
  · simp [findPriorityRange, PRIORITY_RANGES, List.find?, h1]
  · by_cases h2 : p ≤ 95
    · have h21 : 21 ≤ p := by omega
      simp [findPriorityRange, PRIORITY_RANGES, List.find?, h1, h2, h21]
    · have h96 : 96 ≤ p := by omega
      simp [findPriorityRange, PRIORITY_RANGES, List.find?, h1, h2, h96, hp]

/-- The byte-center percentile is at most 100 for a chunk lying inside the file. -/
theorem percent_le_100 {offset size fs : Nat} (h : offset + size ≤ fs) (h2 : 0 < fs) :
    (offset + size / 2) * 100 / fs ≤ 100 := by
  have hc : offset + size / 2 ≤ fs := by omega
  calc (offset + size / 2) * 100 / fs ≤ fs * 100 / fs :=
        Nat.div_le_div_right (Nat.mul_le_mul_right 100 hc)
    _ = 100 := by rw [Nat.mul_comm, Nat.mul_div_cancel 100 h2]

end SupportLemmas

/-- C5 counterexample: at `file_size = 10^18` with the middle chunk of index
`6·10^10` (so `offset + size ≤ file_size` and `0 < file_size`, the claim's
hypotheses, with the chunk accessed long ago and no preload), the source's `u64`
product `center * 100` wraps modulo `2^64` and the code classifies by percentile
13 (`High`), while the claim's exact rule gives percentile 50 (`Low`): the claim
as stated, over every `file_size > 0`, is false on the code. -/
theorem c5_priority_overflow_counterexample :
    60000000000 * DEFAULT_CHUNK_SIZE + DEFAULT_CHUNK_SIZE ≤ 1000000000000000000 ∧
    (0 : Nat) < 1000000000000000000 ∧
    get_priority ⟨300, none, 0, 0⟩ 1000000
      ⟨60000000000, 60000000000 * DEFAULT_CHUNK_SIZE, DEFAULT_CHUNK_SIZE, 0, true,
        false⟩ 1000000000000000000 = some .High ∧
    claimedPriority ⟨300, none, 0, 0⟩ 1000000
      ⟨60000000000, 60000000000 * DEFAULT_CHUNK_SIZE, DEFAULT_CHUNK_SIZE, 0, true,
        false⟩ 1000000000000000000 = .Low := by decide

/-- C5 as amended: for every chunk with `offset + size ≤ file_size`, `0 < file_size`
and `accessed_at ≤ now`, a preload tail not exceeding the chunk count, and such
that the source's `u64` arithmetic does not overflow — `file_size +
DEFAULT_CHUNK_SIZE ≤ 2^64` for the chunk-count computation and
`(offset + size/2)·100 < 2^64` for the percentile product — `Chunk::get_priority`
returns exactly the priority described by the spec's rule list (grace period,
first chunk, last chunk, preload head/tail, then the byte-center percentile:
High 0–20, Low 21–95, Medium 96–100), and in particular never reaches the
no-matching-range panic. -/
theorem get_priority_matches_claim (cfg : Config) (now : Nat) (c : Chunk)
    (file_size : Nat)
    (h1 : c.offset + c.size ≤ file_size) (h2 : 0 < file_size)
    (h3 : c.accessed_at_secs ≤ now)
    (h4 : file_size + DEFAULT_CHUNK_SIZE ≤ 2 ^ 64)
    (h5 : ∀ pre ∈ cfg.chunk_preload, pre.2 ≤ specTotalChunks file_size)
    (h6 : (c.offset + c.size / 2) * 100 < 2 ^ 64) :
    get_priority cfg now c file_size = some (claimedPriority cfg now c file_size) := by
  have hdist : Nat.dist now c.accessed_at_secs = now - c.accessed_at_secs := by
    rw [Nat.dist_comm]; exact Nat.dist_eq_sub_of_le h3
  have hfs : file_size ≠ 0 := h2.ne'
  have hfs64 : file_size < 2 ^ 64 := by
    have hC : 0 < DEFAULT_CHUNK_SIZE := by decide
    omega
  have hp : (c.offset + c.size / 2) * 100 / file_size ≤ 100 := percent_le_100 h1 h2
  have htceq : totalChunks file_size = specTotalChunks file_size :=
    totalChunks_eq_spec h4
  have htot : specTotalChunks file_size < 2 ^ 64 :=
    lt_of_le_of_lt (specTotalChunks_le _) hfs64
  have htc1 : 1 ≤ specTotalChunks file_size := by
    unfold specTotalChunks DEFAULT_CHUNK_SIZE
    omega
  have hlast_eq : u64Sub (totalChunks file_size) 1 = specTotalChunks file_size - 1 := by
    rw [htceq]
    exact u64Sub_eq_sub htc1 htot
  have hcen : u64Add c.offset (c.size / 2) = c.offset + c.size / 2 :=
    Nat.mod_eq_of_lt (by omega)
  have hmul : u64Mul (c.offset + c.size / 2) 100 = (c.offset + c.size / 2) * 100 :=
    Nat.mod_eq_of_lt h6
  unfold get_priority claimedPriority
  rw [hdist]
  by_cases hg : now - c.accessed_at_secs < cfg.cache_grace_period_secs
  · simp [hg]
  · by_cases hi0 : c.index = 0
    · simp [hg, hi0]
    · by_cases hil : c.index = specTotalChunks file_size - 1
      · simp only [hg, if_false, hi0, hlast_eq, hil, if_true]
        split <;> rfl
      · have hafter :
            (match checkedDiv (u64Mul (u64Add c.offset (c.size / 2)) 100)
                file_size with
              | none => none
              | some percent => findPriorityRange percent) =
            some (if (c.offset + c.size / 2) * 100 / file_size ≤ 20 then
                ChunkPriority.High
              else if (c.offset + c.size / 2) * 100 / file_size ≤ 95 then
                ChunkPriority.Low
              else ChunkPriority.Medium) := by
          rw [hcen, hmul]
          simp [checkedDiv, hfs, findPriorityRange_eq hp]
        cases hpre : cfg.chunk_preload with
        | none => simpa [hg, hi0, hil, hlast_eq, hpre] using hafter
        | some pre =>
          obtain ⟨head, tail⟩ := pre
          have htail : tail ≤ specTotalChunks file_size := by
            have := h5 (head, tail) (by simp [hpre])
            simpa using this
          have hpre_eq : u64Sub (totalChunks file_size) tail =
              specTotalChunks file_size - tail := by
            rw [htceq]
            exact u64Sub_eq_sub htail htot
          by_cases hh : c.index ≤ head
          · simp [hg, hi0, hil, hlast_eq, hpre, hh]
          · by_cases ht : specTotalChunks file_size - tail ≤ c.index
            · simp [hg, hi0, hil, hlast_eq, hpre, hh, ht, hpre_eq]
            · simpa [hg, hi0, hil, hlast_eq, hpre, hh, ht, hpre_eq]
                using hafter

/-- C5 witness: a concrete middle chunk of a 100-chunk file, accessed long ago, with
preload `(4, 1)` configured and no `u64` overflow, classifies as `Low` (its
byte-center percentile is 50). -/
theorem get_priority_matches_claim_witness :
    get_priority ⟨300, some (4, 1), 0, 0⟩ 1000000
        ⟨50, 50 * DEFAULT_CHUNK_SIZE, DEFAULT_CHUNK_SIZE, 0, true, false⟩
        (100 * DEFAULT_CHUNK_SIZE) =
      some (claimedPriority ⟨300, some (4, 1), 0, 0⟩ 1000000
        ⟨50, 50 * DEFAULT_CHUNK_SIZE, DEFAULT_CHUNK_SIZE, 0, true, false⟩
        (100 * DEFAULT_CHUNK_SIZE)) ∧
    claimedPriority ⟨300, some (4, 1), 0, 0⟩ 1000000
        ⟨50, 50 * DEFAULT_CHUNK_SIZE, DEFAULT_CHUNK_SIZE, 0, true, false⟩
        (100 * DEFAULT_CHUNK_SIZE) = .Low :=
  ⟨get_priority_matches_claim _ _ _ _ (by decide) (by decide) (by decide) (by decide)
      (by decide) (by decide),
    by decide⟩

set_option maxHeartbeats 2000000 in
set_option maxRecDepth 4000 in
/-- C1 (failing evaluation): on a 599-chunk fully cached entry whose total (≈ 4.7 GiB
above `cache_max_size`) forces eviction, the sweep evicts chunk 0 — whose priority is
`FirstChunk` — first, while chunk 300 is a cached `Low`-priority chunk with a free
guard: the sweeper sorts ascending by priority ordinal and evicts from the front, so
it removes the most-retained classes first, the inverse of the claimed order. -/
theorem c1_sweep_evicts_first_chunk_before_low :
    get_priority sweepCfg 1000000 ⟨0, 0, DEFAULT_CHUNK_SIZE, 0, true, false⟩
      sweepFileSize = some .FirstChunk ∧
    get_priority sweepCfg 1000000
      ⟨300, 300 * DEFAULT_CHUNK_SIZE, DEFAULT_CHUNK_SIZE, 0, true, false⟩
      sweepFileSize = some .Low ∧
    (⟨300, 300 * DEFAULT_CHUNK_SIZE, DEFAULT_CHUNK_SIZE, 0, true, false⟩ : Chunk) ∈
      sweepChunks ∧
    sweepCfg.cache_max_size ≤ (sweepChunks.map Chunk.size).sum ∧
    (sweepOnce sweepCfg 1000000 [(sweepFileSize, sweepChunks)]).map
      (fun l => (l.map Chunk.index).head?) = some (some 0) := by decide

/-- C2 (failing evaluation): for `file_size = DEFAULT_CHUNK_SIZE` (an exact multiple
of the chunk size, a one-chunk file), `get_chunk_size_from_index` returns 0 for the
last index, not `DEFAULT_CHUNK_SIZE` as the claim requires for the
`file_size mod C = 0` case. -/
theorem c2_zero_size_last_chunk_at_exact_multiple :
    totalChunks DEFAULT_CHUNK_SIZE = 1 ∧
    DEFAULT_CHUNK_SIZE % DEFAULT_CHUNK_SIZE = 0 ∧
    get_chunk_size_from_index 0 DEFAULT_CHUNK_SIZE = 0 ∧
    (0 : Nat) ≠ DEFAULT_CHUNK_SIZE := by decide

/-- C3 counterexample: with the penalty deadline at 100 ms and `now = 50` ms (deadline
strictly in the future), `Ratelimiter::wait` sleeps 50 ms but does not reset the
deadline to zero before returning, contradicting the claim. -/
theorem c3_wait_does_not_reset_deadline :
    (50 : Nat) < 100 ∧ (Ratelimiter.wait_after_permit 50 100).1 = 50 ∧
    (Ratelimiter.wait_after_permit 50 100).2 ≠ 0 := by decide

/-- C3 amended: after obtaining a permit, if the nonzero penalty deadline is strictly
in the future, `wait` sleeps for `deadline − now` and leaves the deadline unchanged
(so any later call at or after the deadline returns without sleeping and resets it to
zero); if the nonzero deadline is already past, `wait` resets it to zero and returns
without sleeping. -/
theorem c3_wait_amended (now until_timestamp : Nat) (h0 : 0 < until_timestamp) :
    (now < until_timestamp →
      Ratelimiter.wait_after_permit now until_timestamp =
        (until_timestamp - now, until_timestamp) ∧
      ∀ later, until_timestamp ≤ later →
        Ratelimiter.wait_after_permit later until_timestamp = (0, 0)) ∧
    (until_timestamp ≤ now →
      Ratelimiter.wait_after_permit now until_timestamp = (0, 0)) := by
  unfold Ratelimiter.wait_after_permit
  refine ⟨fun h => ⟨by simp [h0, h], fun later hl => by simp [h0, Nat.not_lt.mpr hl]⟩,
    fun h => by simp [h0, Nat.not_lt.mpr h]⟩

/-- C3 amended witness: at deadline 100, a call at time 50 sleeps 50 and leaves the
deadline; a call at time 150 sleeps 0 and clears it. -/
theorem c3_wait_amended_witness :
    (0 : Nat) < 100 ∧
    Ratelimiter.wait_after_permit 50 100 = (50, 100) ∧
    Ratelimiter.wait_after_permit 150 100 = (0, 0) :=
  ⟨by decide, ((c3_wait_amended 50 100 (by decide)).1 (by decide)).1,
    (c3_wait_amended 150 100 (by decide)).2 (by decide)⟩

/-- C10 (failing evaluation): whenever a positive duration hint exceeds the file size,
`bytes_per_sec = file_size / duration_hint_secs` is zero and the read-ahead
computation divides `reader.bytes_read` by zero, a panic — refuting the claim that
the computation evaluates totally for every `file_size`, including
`file_size < d`. -/
theorem c10_read_ahead_division_panic (chunks : List Chunk)
    (file_size d idx r : Nat) (h1 : 0 < d) (h2 : file_size < d) :
    get_read_ahead_chunks chunks file_size d idx r = none := by
  have hb : file_size / d = 0 := Nat.div_eq_of_lt h2
  simp [get_read_ahead_chunks, h1, hb, checkedDiv]

/-- C10 witness: a 100-byte file with a 200-second duration hint panics in the
read-ahead computation. -/
theorem c10_read_ahead_division_panic_witness :
    (0 : Nat) < 200 ∧ (100 : Nat) < 200 ∧
    get_read_ahead_chunks [] 100 200 0 0 = none :=
  ⟨by decide, by decide, c10_read_ahead_division_panic [] 100 200 0 0 (by decide)
    (by decide)⟩

/-- One iteration's observations in the spin loop of `CacheEntry::wait_for_chunks`
(`src/cache/entry.rs`): whether `downloading.try_lock()` succeeded and the value of
`cached` loaded right after. -/
structure ChunkObs where
  lockFree : Bool
  cached : Bool
deriving Repr, DecidableEq

/-- Result of the wait loop; `pending` models a run still spinning when its
observation trace ends (the loop has no other exit). -/
inductive WaitResult
  | ok
  | chunkUnavailable (index : Nat)
  | pending
deriving Repr, DecidableEq

/-- Inner loop of `CacheEntry::wait_for_chunks` for one chunk, over the sequence of
its per-iteration observations: break when `cached` is true; bail with the
chunk-unavailable error when the guard was acquired and `cached` is false; otherwise
sleep 20 ms and loop. The loop body performs no writes and queues nothing. -/
def wait_for_chunk (index : Nat) : List ChunkObs → WaitResult
  | [] => .pending
  | o :: rest =>
    if o.cached then .ok
    else if o.lockFree then .chunkUnavailable index
    else wait_for_chunk index rest

/-- Outer loop of `CacheEntry::wait_for_chunks` over the covering chunks (each given
with its observation trace): the first failing chunk's result propagates. -/
def wait_for_chunks : List (Nat × List ChunkObs) → WaitResult
  | [] => .ok
  | (i, obs) :: rest =>
    match wait_for_chunk i obs with
    | .ok => wait_for_chunks rest
    | r => r

/-- Tail of `CacheEntry::read_bytes`: the backing file is opened for read exactly when
`wait_for_chunks` over the covering chunks returned `Ok`. -/
def read_bytes_opens_file (covering : List (Nat × List ChunkObs)) : Bool :=
  wait_for_chunks covering == .ok

/-- A chunk whose wait loop succeeded was observed cached at its deciding iteration. -/
theorem wait_for_chunk_ok_observes_cached {i : Nat} {obs : List ChunkObs}
    (h : wait_for_chunk i obs = .ok) : ∃ o ∈ obs, o.cached = true := by
  induction obs with
  | nil => simp [wait_for_chunk] at h
  | cons o rest ih =>
    by_cases hc : o.cached
    · exact ⟨o, by simp, hc⟩
    · by_cases hl : o.lockFree
      · simp [wait_for_chunk, hc, hl] at h
      · rw [wait_for_chunk] at h
        simp only [hc, hl] at h
        obtain ⟨o2, ho2, hco2⟩ := ih (by simpa using h)
        exact ⟨o2, by simp [ho2], hco2⟩

/-- C4: (1) fail-fast — at any iteration where the chunk's guard is acquirable and its
`cached` flag is false, the wait loop returns the chunk-unavailable error immediately,
regardless of any later observations (and, structurally, without re-queueing or writing
chunk state); (2) `read_bytes` opens the backing file for read only when every covering
chunk's wait loop observed `cached = true`. -/
theorem c4_read_bytes_fail_fast_and_cached_observation :
    (∀ (i : Nat) (o : ChunkObs) (obs : List ChunkObs), o.cached = false →
      o.lockFree = true → wait_for_chunk i (o :: obs) = .chunkUnavailable i) ∧
    (∀ covering : List (Nat × List ChunkObs), read_bytes_opens_file covering = true →
      ∀ p ∈ covering, ∃ o ∈ p.2, o.cached = true) := by
  constructor
  · intro i o obs hc hl
    simp [wait_for_chunk, hc, hl]
  · intro covering
    induction covering with
    | nil => intro _ p hp; simp at hp
    | cons q rest ih =>
      obtain ⟨i, obs⟩ := q
      intro h p hp
      rw [read_bytes_opens_file, beq_iff_eq, wait_for_chunks] at h
      rcases hq : wait_for_chunk i obs with _ | j | _ <;> rw [hq] at h
      · rcases List.mem_cons.mp hp with hp | hp
        · subst hp
          exact wait_for_chunk_ok_observes_cached hq
        · exact ih (by rw [read_bytes_opens_file, beq_iff_eq]; exact h) p hp
      · exact absurd h (by simp)
      · exact absurd h (by simp)

/-- C4 witness: a chunk observed with a free guard and `cached = false` fails fast
with its index; a read whose single covering chunk was observed downloading then
cached did observe `cached = true`. -/
theorem c4_read_bytes_fail_fast_witness :
    wait_for_chunk 3 [⟨true, false⟩, ⟨false, true⟩] = .chunkUnavailable 3 ∧
    ∃ o ∈ [ChunkObs.mk false false, ChunkObs.mk false true], o.cached = true :=
  ⟨c4_read_bytes_fail_fast_and_cached_observation.1 3 ⟨true, false⟩ [⟨false, true⟩]
      rfl rfl,
    c4_read_bytes_fail_fast_and_cached_observation.2
      [(0, [ChunkObs.mk false false, ChunkObs.mk false true])] (by decide)
      (0, [ChunkObs.mk false false, ChunkObs.mk false true]) (by decide)⟩

/-- JSON values, modelling the serde_json data model used by the `.cachemeta`
format (only the shapes produced/consumed by `Chunk`'s serialisation occur). A
`serde_json::to_writer` rendering is a function of this tree, so equal trees give
byte-identical output. -/
inductive Json
  | num (n : Nat)
  | bool (b : Bool)
  | arr (elems : List Json)
  | obj (fields : List (String × Json))

/-- Serde serialisation of `Chunk` (`#[derive(Serialize)]` with `downloading`
skipped): an object with the struct's fields in declaration order. -/
def Chunk.toJson (c : Chunk) : Json :=
  .obj [("index", .num c.index), ("offset", .num c.offset), ("size", .num c.size),
    ("accessed_at_secs", .num c.accessed_at_secs), ("cached", .bool c.cached)]

/-- The function `serialize_chunks` from `src/cache/chunk.rs`: the chunk vector as a
JSON array. -/
def serialize_chunks (cs : List Chunk) : Json :=
  .arr (cs.map Chunk.toJson)

/-- Field access of the derived deserialiser: a numeric field by name. -/
def getNumField (fields : List (String × Json)) (name : String) : Option Nat :=
  match fields.lookup name with
  | some (.num n) => some n
  | _ => none

/-- Field access of the derived deserialiser: a boolean field by name. -/
def getBoolField (fields : List (String × Json)) (name : String) : Option Bool :=
  match fields.lookup name with
  | some (.bool b) => some b
  | _ => none

/-- The manual `Deserialize` impl for `Chunk` (`src/cache/chunk.rs`): reads the
`ChunkData` fields `index`, `size`, `offset`, `accessed_at_secs`, `cached` and
builds a `Chunk` with a fresh (unheld) `downloading` mutex. -/
def Chunk.fromJson : Json → Option Chunk
  | .obj fields =>
    match getNumField fields "index", getNumField fields "size",
        getNumField fields "offset", getNumField fields "accessed_at_secs",
        getBoolField fields "cached" with
    | some index, some size, some offset, some accessed, some cached =>
        some ⟨index, offset, size, accessed, cached, false⟩
    | _, _, _, _, _ => none
  | _ => none

/-- Element loop of the serde sequence deserialiser for `Vec<Arc<Chunk>>`: every
element must deserialise. -/
def deserialize_chunk_list : List Json → Option (List Chunk)
  | [] => some []
  | j :: rest =>
    match Chunk.fromJson j, deserialize_chunk_list rest with
    | some c, some l => some (c :: l)
    | _, _ => none

/-- The function `deserialize_chunks` from `src/cache/chunk.rs`: a JSON array of
chunk objects. -/
def deserialize_chunks : Json → Option (List Chunk)
  | .arr elems => deserialize_chunk_list elems
  | _ => none

/-- C9: serialising a chunk vector and deserialising the result recovers every
chunk's `index`, `offset`, `size`, `accessed_at_secs` and `cached` exactly (with a
fresh download guard), so re-serialising yields a JSON tree — hence a byte
stream — identical to the first serialisation. -/
theorem c9_serialize_roundtrip (cs : List Chunk) :
    deserialize_chunks (serialize_chunks cs) =
      some (cs.map fun c => { c with downloading_held := false }) ∧
    (deserialize_chunks (serialize_chunks cs)).map serialize_chunks =
      some (serialize_chunks cs) := by
  have h1 : ∀ c : Chunk, Chunk.fromJson (Chunk.toJson c) =
      some { c with downloading_held := false } := by
    intro c
    simp [Chunk.toJson, Chunk.fromJson, getNumField, getBoolField, List.lookup]
  have hmap : ∀ l : List Chunk, deserialize_chunk_list (l.map Chunk.toJson) =
      some (l.map fun c => { c with downloading_held := false }) := by
    intro l
    induction l with
    | nil => simp [deserialize_chunk_list]
    | cons c rest ih => simp [deserialize_chunk_list, h1, ih]
  have h2 : deserialize_chunks (serialize_chunks cs) =
      some (cs.map fun c => { c with downloading_held := false }) := by
    rw [serialize_chunks, deserialize_chunks]
    exact hmap cs
  have hcomp : (Chunk.toJson ∘ fun c : Chunk => { c with downloading_held := false }) =
      Chunk.toJson := funext fun c => rfl
  refine ⟨h2, ?_⟩
  rw [h2]
  show some (serialize_chunks (cs.map fun c => { c with downloading_held := false })) =
    some (serialize_chunks cs)
  rw [serialize_chunks, serialize_chunks, List.map_map, hcomp]

/-- Stable sort by index, modelling the `chunks.sort_by_key(|c| c.index)` call in
`CacheEntry::queue_chunks` (`src/cache/entry.rs`). Rust's `sort_by_key` is stable;
`List.insertionSort` is stable for this total preorder, so both produce the same
list. -/
def sortChunksByIndex (cs : List Chunk) : List Chunk :=
  List.insertionSort (fun a b => a.index ≤ b.index) cs

/-- Run scanner for `Vec::dedup`: drops successors equal (by `index`, `Chunk`'s
`PartialEq`) to the last kept element `prev`. -/
def dedupLoop (prev : Chunk) : List Chunk → List Chunk
  | [] => []
  | b :: rest =>
    if prev.index = b.index then dedupLoop prev rest
    else b :: dedupLoop b rest

/-- The `chunks.dedup()` call in `CacheEntry::queue_chunks`: removes consecutive
elements equal under `Chunk`'s `PartialEq`, which compares only `index`, keeping
the first of each run. -/
def dedupChunks : List Chunk → List Chunk
  | [] => []
  | a :: rest => a :: dedupLoop a rest

/-- Batch-building loop of `CacheEntry::queue_chunks` over the sorted, deduplicated
list: skip chunks whose `cached` flag is set; skip chunks whose `downloading` guard
cannot be acquired (`try_lock_owned` fails); when the batch is nonempty and the new
chunk is not contiguous with the batch's last chunk (`last.index != chunk.index - 1`),
flush the batch and start a new one; a trailing nonempty batch is flushed at the end.
Returns the flushed batches in order — `pinch_chunk_batch` spawns one downloader task
per returned batch, holding the acquired guards. In `queue_chunks` the scanned list is
strictly ascending, so `chunk.index ≥ 1` whenever the batch is nonempty and `Nat`
subtraction in the contiguity test agrees with `u64`. -/
def buildBatches : List Chunk → List Chunk → List (List Chunk)
  | batch, [] => if batch.isEmpty then [] else [batch]
  | batch, c :: rest =>
    if c.cached then buildBatches batch rest
    else if c.downloading_held then buildBatches batch rest
    else
      match batch.getLast? with
      | some last =>
        if last.index ≠ c.index - 1 then batch :: buildBatches [c] rest
        else buildBatches (batch ++ [c]) rest
      | none => buildBatches [c] rest

/-- The method `CacheEntry::queue_chunks` from `src/cache/entry.rs`: sort by index,
dedup, then build and dispatch contiguous batches of acquirable chunks. -/
def queue_chunks (cs : List Chunk) : List (List Chunk) :=
  buildBatches [] (dedupChunks (sortChunksByIndex cs))

/-- Scanning a tail whose elements all dominate `prev` (non-strictly) and are
sorted yields a strictly ascending output strictly above `prev`. -/
theorem dedupLoop_spec (l : List Chunk) :
    ∀ prev : Chunk, (∀ x ∈ l, prev.index ≤ x.index) →
      l.Pairwise (fun a b => a.index ≤ b.index) →
      (dedupLoop prev l).Pairwise (fun a b => a.index < b.index) ∧
        ∀ y ∈ dedupLoop prev l, prev.index < y.index := by
  induction l with
  | nil => intro prev _ _; simp [dedupLoop]
  | cons b rest ih =>
    intro prev hle hpw
    rcases List.pairwise_cons.mp hpw with ⟨hb, hrest⟩
    rw [dedupLoop]
    by_cases hab : prev.index = b.index
    · rw [if_pos hab]
      exact ih prev (fun x hx => hab ▸ hb x hx) hrest
    · rw [if_neg hab]
      have hltb : prev.index < b.index :=
        lt_of_le_of_ne (hle b (by simp)) hab
      obtain ⟨hpw2, habove⟩ := ih b hb hrest
      refine ⟨List.pairwise_cons.mpr ⟨habove, hpw2⟩, ?_⟩
      intro y hy
      rcases List.mem_cons.mp hy with rfl | hy
      · exact hltb
      · exact lt_trans hltb (habove y hy)

/-- Deduplicating a list sorted by index (non-strictly) yields a strictly
ascending list. -/
theorem dedupChunks_pairwise_lt {l : List Chunk}
    (h : l.Pairwise fun a b => a.index ≤ b.index) :
    (dedupChunks l).Pairwise fun a b => a.index < b.index := by
  cases l with
  | nil => simp [dedupChunks]
  | cons a rest =>
    rcases List.pairwise_cons.mp h with ⟨ha, hrest⟩
    rw [dedupChunks]
    obtain ⟨hpw, habove⟩ := dedupLoop_spec rest a ha hrest
    exact List.pairwise_cons.mpr ⟨habove, hpw⟩

/-- A dispatched batch: nonempty, all its chunks were uncached with a free guard at
scan time, and its indices are strictly consecutive ascending. -/
def goodBatch (bt : List Chunk) : Prop :=
  bt ≠ [] ∧ (∀ c ∈ bt, c.cached = false ∧ c.downloading_held = false) ∧
    bt.Chain' fun x y => y.index = x.index + 1

/-- Adjacent dispatched batches are separated by a gap: the head of the next batch is
not the successor of the last chunk of the previous one. -/
def batchGap (b1 b2 : List Chunk) : Prop :=
  ∀ x ∈ b1.getLast?, ∀ y ∈ b2.head?, x.index + 1 ≠ y.index

/-- Invariant proof for the batch-building loop: over a strictly ascending input,
with a current batch of acquirable consecutive chunks all below the input, every
produced batch is good, adjacent batches are non-contiguous, and a nonempty current
batch is the head of the first produced batch. -/
theorem buildBatches_spec (rest : List Chunk) :
    ∀ batch : List Chunk,
      rest.Pairwise (fun a b => a.index < b.index) →
      (∀ c ∈ batch, c.cached = false ∧ c.downloading_held = false) →
      batch.Chain' (fun x y => y.index = x.index + 1) →
      (∀ b ∈ batch, ∀ r ∈ rest, b.index < r.index) →
      (∀ bt ∈ buildBatches batch rest, goodBatch bt) ∧
        (buildBatches batch rest).Chain' batchGap ∧
        (batch ≠ [] → buildBatches batch rest ≠ [] ∧
          (buildBatches batch rest).head?.bind List.head? = batch.head?) := by
  induction rest with
  | nil =>
    intro batch _ hgood hchain _
    rw [buildBatches]
    cases batch with
    | nil => simp
    | cons a bs =>
      simp only [List.isEmpty_cons, Bool.false_eq_true, if_false]
      refine ⟨?_, by simp, fun _ => ⟨by simp, by simp⟩⟩
      intro bt hbt
      rcases List.mem_singleton.mp hbt with rfl
      exact ⟨by simp, hgood, hchain⟩
  | cons c rest ih =>
    intro batch hrest hgood hchain hsep
    rcases List.pairwise_cons.mp hrest with ⟨hcr, hrest2⟩
    rw [buildBatches]
    by_cases hc : c.cached
    · rw [if_pos hc]
      exact ih batch hrest2 hgood hchain
        (fun b hb r hr => lt_trans (hsep b hb c (by simp)) (hcr r hr))
    · rw [if_neg hc]
      by_cases hh : c.downloading_held
      · rw [if_pos hh]
        exact ih batch hrest2 hgood hchain
          (fun b hb r hr => lt_trans (hsep b hb c (by simp)) (hcr r hr))
      · rw [if_neg hh]
        have hcfree : c.cached = false := Bool.of_not_eq_true hc
        have hhfree : c.downloading_held = false := Bool.of_not_eq_true hh
        have hrec1 := ih [c] hrest2
          (fun d hd => by rcases List.mem_singleton.mp hd with rfl; exact ⟨hcfree, hhfree⟩)
          (by simp) (by simpa using hcr)
        split
        · rename_i last hlast
          have hlmem : last ∈ batch := List.mem_of_getLast?_eq_some hlast
          have hlc : last.index < c.index := hsep last hlmem c (by simp)
          have hbne : batch ≠ [] := by
            intro he; rw [he] at hlast; simp at hlast
          by_cases hcont : last.index = c.index - 1
          · rw [if_neg (not_not_intro hcont)]
            have hsucc : c.index = last.index + 1 := by omega
            have hchain2 : (batch ++ [c]).Chain' fun x y => y.index = x.index + 1 := by
              rw [List.chain'_append]
              refine ⟨hchain, by simp, ?_⟩
              intro x hx y hy
              rw [hlast] at hx
              rcases Option.mem_some_iff.mp hx with rfl
              rcases Option.mem_some_iff.mp (by simpa using hy) with rfl
              exact hsucc
            have hgood2 : ∀ d ∈ batch ++ [c],
                d.cached = false ∧ d.downloading_held = false := by
              intro d hd
              rcases List.mem_append.mp hd with hd | hd
              · exact hgood d hd
              · rcases List.mem_singleton.mp hd with rfl
                exact ⟨hcfree, hhfree⟩
            have hsep2 : ∀ b ∈ batch ++ [c], ∀ r ∈ rest, b.index < r.index := by
              intro b hb r hr
              rcases List.mem_append.mp hb with hb | hb
              · exact lt_trans (hsep b hb c (by simp)) (hcr r hr)
              · rcases List.mem_singleton.mp hb with rfl
                exact hcr r hr
            obtain ⟨g1, g2, g3⟩ := ih (batch ++ [c]) hrest2 hgood2 hchain2 hsep2
            refine ⟨g1, g2, fun _ => ?_⟩
            obtain ⟨n1, n2⟩ := g3 (by simp)
            refine ⟨n1, ?_⟩
            rw [n2]
            cases batch with
            | nil => exact absurd rfl hbne
            | cons a bs => simp
          · rw [if_pos hcont]
            obtain ⟨hall1, hchain1, hhead1⟩ := hrec1
            obtain ⟨hne1, hhd1⟩ := hhead1 (by simp)
            refine ⟨?_, ?_, fun _ => ⟨by simp, by simp⟩⟩
            · intro bt hbt
              rcases List.mem_cons.mp hbt with rfl | hbt
              · exact ⟨hbne, hgood, hchain⟩
              · exact hall1 bt hbt
            · rw [List.chain'_cons']
              refine ⟨?_, hchain1⟩
              intro b2 hb2 x hx y hy
              rw [hlast] at hx
              rcases Option.mem_some_iff.mp hx with rfl
              have hb2h : b2.head? = some c := by
                cases hbb : buildBatches [c] rest with
                | nil => exact absurd hbb hne1
                | cons b0 bs =>
                  rw [hbb] at hb2 hhd1
                  rcases Option.mem_some_iff.mp (by simpa using hb2) with rfl
                  simpa using hhd1
              rw [hb2h] at hy
              rcases Option.mem_some_iff.mp hy with rfl
              omega
        · rename_i hlast
          have hbe : batch = [] := List.getLast?_eq_none_iff.mp hlast
          subst hbe
          obtain ⟨h1, h2, _⟩ := hrec1
          exact ⟨h1, h2, fun habs => absurd rfl habs⟩

/-- C7: `queue_chunks` dispatches no work for a chunk that is cached or whose guard
is held at scan time — every chunk of every dispatched batch was uncached with a free
guard — each batch's indices are strictly consecutive ascending (so the batch is
flushed exactly when the next acquirable chunk is non-contiguous), and adjacent
dispatched batches are separated by a genuine index gap. -/
theorem c7_queue_chunks_batches (cs : List Chunk) :
    (∀ bt ∈ queue_chunks cs, goodBatch bt) ∧
    (queue_chunks cs).Chain' batchGap := by
  have hsorted : (sortChunksByIndex cs).Pairwise fun a b => a.index ≤ b.index := by
    haveI : IsTotal Chunk fun a b => a.index ≤ b.index := ⟨fun a b => Nat.le_total _ _⟩
    haveI : IsTrans Chunk fun a b => a.index ≤ b.index :=
      ⟨fun _ _ _ h1 h2 => Nat.le_trans h1 h2⟩
    exact List.sorted_insertionSort _ _
  have hlt := dedupChunks_pairwise_lt hsorted
  have h := buildBatches_spec (dedupChunks (sortChunksByIndex cs)) [] hlt
    (by simp) (by simp) (by simp)
  exact ⟨h.1, h.2.1⟩

/-- C7 witness: queueing chunks 5, 2, 3 (uncached, guards free) together with a
cached chunk 4 dispatches the batch `[2, 3]`, which is nonempty, acquirable and
consecutive. -/
theorem c7_queue_chunks_batches_witness :
    ([(⟨2, 0, 0, 0, false, false⟩ : Chunk), ⟨3, 0, 0, 0, false, false⟩] ≠ [] ∧
      (∀ c ∈ [(⟨2, 0, 0, 0, false, false⟩ : Chunk), ⟨3, 0, 0, 0, false, false⟩],
        c.cached = false ∧ c.downloading_held = false) ∧
      List.Chain' (fun x y => y.index = x.index + 1)
        [(⟨2, 0, 0, 0, false, false⟩ : Chunk), ⟨3, 0, 0, 0, false, false⟩]) :=
  (c7_queue_chunks_batches
      [⟨5, 0, 0, 0, false, false⟩, ⟨2, 0, 0, 0, false, false⟩,
        ⟨3, 0, 0, 0, false, false⟩, ⟨4, 0, 0, 0, true, false⟩]).1
    [⟨2, 0, 0, 0, false, false⟩, ⟨3, 0, 0, 0, false, false⟩] (by decide)

/-- Observable events of the block-processing loop in
`download_contiguous_chunks_inner` (`src/cache/downloader.rs`): a chunk at batch
position `k` is published (`cached.store(true)`) with the current `bytes_written`
value, or `.cachemeta` is flushed (`entry.flush_cache_meta()`). -/
inductive DlEvent
  | publish (k : Nat) (bytes_written : Nat)
  | flushMeta
deriving Repr, DecidableEq

/-- The conditional update of `current_chunk_end_offset` after advancing
`current_chunk_index`: the next remaining chunk's end, or the stale value when no
chunk remains. -/
def nextEndOffset (end_offset : Nat) : List Chunk → Nat
  | [] => end_offset
  | c2 :: _ => c2.offset + c2.size

/-- Inner `while` of `download_contiguous_chunks_inner` ("Mark chunks as cached as
soon as they're fully downloaded"): while `start_offset + bytes_written ≥
current_chunk_end_offset` and a chunk remains, publish the chunk at position `k`,
flush `.cachemeta`, and advance. The suffix of the batch from position `k` stands
for the source's `current_chunk_index` into the chunk vector, and `end_offset`
threads the source's `current_chunk_end_offset` variable, which is updated only
while another chunk remains (when all chunks are published, the stale value is
irrelevant because the `current_chunk_index < chunks.len()` conjunct exits the
loop, here the `[]` case). Returns the events plus the updated loop state.
The source's `if current_chunk_index < chunks.len() { current_chunk_end_offset =
... }` update is `nextEndOffset`. -/
def publishWhile (start_offset bytes_written : Nat) :
    Nat → Nat → List Chunk → List DlEvent × Nat × Nat × List Chunk
  | k, end_offset, [] => ([], k, end_offset, [])
  | k, end_offset, c :: rest =>
    if end_offset ≤ start_offset + bytes_written then
      let r := publishWhile start_offset bytes_written (k + 1)
        (nextEndOffset end_offset rest) rest
      (.publish k bytes_written :: .flushMeta :: r.1, r.2)
    else ([], k, end_offset, c :: rest)

/-- Outer block loop of `download_contiguous_chunks_inner`: for each streamed
block, write it to the sparse file, add its length to `bytes_written`, then run
the publish loop. -/
def downloadBlocks (start_offset : Nat) :
    List Nat → Nat → Nat → Nat → List Chunk → List DlEvent
  | [], _, _, _, _ => []
  | b :: blocks, bytes_written, k, end_offset, remaining =>
    let bw := bytes_written + b
    let r := publishWhile start_offset bw k end_offset remaining
    r.1 ++ downloadBlocks start_offset blocks bw r.2.1 r.2.2.1 r.2.2.2

/-- Event trace of `download_contiguous_chunks_inner` on the batch `chunks` with
the response stream's block sizes: `start_offset` is the first chunk's offset and
the initial `current_chunk_end_offset` is the first chunk's end (the source reads
`chunks[0]`; `download_contiguous_chunks` asserts the batch nonempty, so the `[]`
arm is unreachable). -/
def download_events (chunks : List Chunk) (blocks : List Nat) : List DlEvent :=
  match chunks with
  | [] => []
  | c0 :: _ => downloadBlocks c0.offset blocks 0 0 (c0.offset + c0.size) chunks

/-- Shape check: the trace is a sequence of publish events each immediately
followed by a `.cachemeta` flush. -/
def eventsOk : List DlEvent → Bool
  | [] => true
  | .publish _ _ :: .flushMeta :: rest => eventsOk rest
  | _ => false

/-- The published batch positions, in trace order. -/
def publishedKs (evs : List DlEvent) : List Nat :=
  evs.filterMap fun e =>
    match e with
    | .publish k _ => some k
    | _ => none

/-- Shape facts about a publish/flush run produced for the positions `ks`. -/
theorem publishRun_shape (bw : Nat) :
    ∀ (ks : List Nat) (tail : List DlEvent),
      eventsOk ((ks.flatMap fun j => [DlEvent.publish j bw, DlEvent.flushMeta]) ++ tail) =
        eventsOk tail ∧
      publishedKs ((ks.flatMap fun j => [DlEvent.publish j bw, DlEvent.flushMeta]) ++ tail) =
        ks ++ publishedKs tail ∧
      (∀ j b, DlEvent.publish j b ∈
          (ks.flatMap fun j => [DlEvent.publish j bw, DlEvent.flushMeta]) →
        j ∈ ks ∧ b = bw) := by
  intro ks
  induction ks with
  | nil => intro tail; simp [publishedKs]
  | cons k ks ih =>
    intro tail
    obtain ⟨ih1, ih2, ih3⟩ := ih tail
    refine ⟨?_, ?_, ?_⟩
    · simpa [eventsOk] using ih1
    · simpa [publishedKs] using ih2
    · intro j b hj
      simp only [List.flatMap_cons, List.cons_append, List.mem_cons] at hj
      rcases hj with hj | hj | hj
      · rcases DlEvent.publish.injEq .. ▸ hj with ⟨rfl, rfl⟩
        exact ⟨by simp, rfl⟩
      · exact absurd hj (by simp)
      · have := ih3 j b (by simpa using hj)
        exact ⟨by simp [this.1], this.2⟩

/-- Correctness of the publish loop: started at position `k` with the loop's
`end_offset` equal to the end of the first remaining chunk, it publishes a prefix
of the remaining chunks as consecutive positions `k, k+1, …`, each only when its
chunk's bytes are fully below `start_offset + bytes_written`, and re-establishes
the `end_offset` invariant for the rest. -/
theorem publishWhile_spec (start bw : Nat) :
    ∀ (remaining : List Chunk) (k end_offset : Nat),
      (∀ c ∈ remaining.head?, end_offset = c.offset + c.size) →
      ∃ n endOff2,
        publishWhile start bw k end_offset remaining =
          ((List.range' k n).flatMap fun j => [DlEvent.publish j bw, DlEvent.flushMeta],
            k + n, endOff2, remaining.drop n) ∧
        n ≤ remaining.length ∧
        (∀ j c, j < n → remaining.get? j = some c →
          c.offset + c.size ≤ start + bw) ∧
        (∀ c ∈ (remaining.drop n).head?, endOff2 = c.offset + c.size) := by
  intro remaining
  induction remaining with
  | nil =>
    intro k end_offset _
    refine ⟨0, end_offset, by simp [publishWhile], by simp, ?_, by simp⟩
    intro j c hj
    exact absurd hj (by omega)
  | cons c rest ih =>
    intro k end_offset hhead
    have hend : end_offset = c.offset + c.size := hhead c (by simp)
    rw [publishWhile]
    by_cases hle : end_offset ≤ start + bw
    · rw [if_pos hle]
      have hhead2 : ∀ c2 ∈ rest.head?,
          nextEndOffset end_offset rest = c2.offset + c2.size := by
        cases rest with
        | nil => intro c2 hc2; simp at hc2
        | cons c2 r2 =>
          intro c3 hc3
          rcases Option.mem_some_iff.mp hc3 with rfl
          rfl
      obtain ⟨n, endOff2, heq, hlen, hz, hlast⟩ := ih (k + 1) _ hhead2
      refine ⟨n + 1, endOff2, ?_, by simpa using Nat.succ_le_succ hlen, ?_, hlast⟩
      · rw [heq]
        refine congrArg₂ Prod.mk ?_ (by simp; omega)
        rw [List.range'_succ]
        simp
      · intro j cj hj hcj
        cases j with
        | zero =>
          rcases Option.some_inj.mp hcj with rfl
          omega
        | succ j2 =>
          exact hz j2 cj (by omega) (by simpa using hcj)
    · rw [if_neg hle]
      refine ⟨0, end_offset, by simp, by simp, ?_, ?_⟩
      · intro j cj hj
        exact absurd hj (by omega)
      · intro c2 hc2
        rcases Option.mem_some_iff.mp (by simpa using hc2) with rfl
        exact hend

/-- Correctness of the block loop: starting at position `k` with the `end_offset`
invariant, the trace is publish/flush pairs for consecutive positions starting at
`k`, and each published position's chunk lies entirely below
`start + bytes_written-at-publish`. -/
theorem downloadBlocks_spec (start : Nat) (chunks : List Chunk) :
    ∀ (blocks : List Nat) (bw k end_offset : Nat),
      (∀ c ∈ (chunks.drop k).head?, end_offset = c.offset + c.size) →
      ∃ m,
        eventsOk (downloadBlocks start blocks bw k end_offset (chunks.drop k)) = true ∧
        publishedKs (downloadBlocks start blocks bw k end_offset (chunks.drop k)) =
          List.range' k m ∧
        (∀ j b, DlEvent.publish j b ∈
            downloadBlocks start blocks bw k end_offset (chunks.drop k) →
          ∃ c, chunks.get? j = some c ∧ c.offset + c.size ≤ start + b) := by
  intro blocks
  induction blocks with
  | nil =>
    intro bw k end_offset _
    exact ⟨0, by simp [downloadBlocks, eventsOk], by simp [downloadBlocks, publishedKs],
      by simp [downloadBlocks]⟩
  | cons b blocks ih =>
    intro bw k end_offset hhead
    obtain ⟨n, endOff2, heq, hlen, hz, hlast⟩ :=
      publishWhile_spec start (bw + b) (chunks.drop k) k end_offset hhead
    have hdrop : (chunks.drop k).drop n = chunks.drop (k + n) := by
      rw [List.drop_drop, Nat.add_comm]
    rw [hdrop] at heq hlast
    obtain ⟨m, ih1, ih2, ih3⟩ := ih (bw + b) (k + n) endOff2 hlast
    have hstep : downloadBlocks start (b :: blocks) bw k end_offset (chunks.drop k) =
        ((List.range' k n).flatMap fun j =>
          [DlEvent.publish j (bw + b), DlEvent.flushMeta]) ++
          downloadBlocks start blocks (bw + b) (k + n) endOff2 (chunks.drop (k + n)) := by
      conv_lhs => rw [downloadBlocks]
      rw [heq]
    refine ⟨n + m, ?_, ?_, ?_⟩
    · rw [hstep, (publishRun_shape (bw + b) (List.range' k n) _).1]
      exact ih1
    · rw [hstep, (publishRun_shape (bw + b) (List.range' k n) _).2.1, ih2]
      have := List.range'_append k n m 1
      rw [one_mul] at this
      rw [Nat.add_comm n m]
      exact this
    · intro j bj hj
      rw [hstep] at hj
      rcases List.mem_append.mp hj with hj | hj
      · obtain ⟨hjk, rfl⟩ := (publishRun_shape (bw + b) (List.range' k n)
          (downloadBlocks start blocks (bw + b) (k + n) endOff2
            (chunks.drop (k + n)))).2.2 j bj hj
        have hjr : k ≤ j ∧ j < k + n := List.mem_range'_1.mp hjk
        cases hg : (chunks.drop k).get? (j - k) with
        | none =>
          have := List.get?_eq_none.mp hg
          omega
        | some c =>
          refine ⟨c, ?_, hz (j - k) c (by omega) hg⟩
          rw [List.get?_drop] at hg
          have : k + (j - k) = j := by omega
          rw [this] at hg
          exact hg
      · exact ih3 j bj hj

/-- C8: during a single batch download, the `cached` flags are published in strictly
ascending batch position order starting at the batch's head, each chunk is published
only once `start_offset + bytes_written` has reached its end offset (all its bytes
are already written to the backing file), and `.cachemeta` is flushed immediately
after every publish. -/
theorem c8_download_publish_order (c0 : Chunk) (cs : List Chunk) (blocks : List Nat) :
    eventsOk (download_events (c0 :: cs) blocks) = true ∧
    publishedKs (download_events (c0 :: cs) blocks) =
      List.range' 0 (publishedKs (download_events (c0 :: cs) blocks)).length ∧
    (∀ j b, DlEvent.publish j b ∈ download_events (c0 :: cs) blocks →
      ∃ c, (c0 :: cs).get? j = some c ∧ c.offset + c.size ≤ c0.offset + b) := by
  have hbase : ∀ c ∈ (((c0 :: cs).drop 0).head?), c0.offset + c0.size =
      c.offset + c.size := by
    intro c hc
    rcases Option.mem_some_iff.mp (by simpa using hc) with rfl
    rfl
  obtain ⟨m, h1, h2, h3⟩ :=
    downloadBlocks_spec c0.offset (c0 :: cs) blocks 0 0 (c0.offset + c0.size) hbase
  rw [List.drop_zero] at h1 h2 h3
  have hev : download_events (c0 :: cs) blocks =
      downloadBlocks c0.offset blocks 0 0 (c0.offset + c0.size) (c0 :: cs) := rfl
  rw [hev]
  refine ⟨h1, ?_, h3⟩
  rw [h2, List.length_range']

/-- C8 witness: a two-chunk batch (bytes 0–3 and 4–7) downloaded as blocks of 3 and
5 bytes publishes positions 0 then 1, each with 8 bytes written (covering both
chunks), each publish followed by a metadata flush. -/
theorem c8_download_publish_order_witness :
    (∃ c, [(⟨0, 0, 4, 0, false, false⟩ : Chunk), ⟨1, 4, 4, 0, false, false⟩].get? 1 =
        some c ∧ c.offset + c.size ≤ 0 + 8) ∧
    publishedKs (download_events
        [(⟨0, 0, 4, 0, false, false⟩ : Chunk), ⟨1, 4, 4, 0, false, false⟩] [3, 5]) =
      List.range' 0 (publishedKs (download_events
        [(⟨0, 0, 4, 0, false, false⟩ : Chunk), ⟨1, 4, 4, 0, false, false⟩]
        [3, 5])).length :=
  ⟨(c8_download_publish_order ⟨0, 0, 4, 0, false, false⟩ [⟨1, 4, 4, 0, false, false⟩]
      [3, 5]).2.2 1 8 (by decide),
    (c8_download_publish_order ⟨0, 0, 4, 0, false, false⟩ [⟨1, 4, 4, 0, false, false⟩]
      [3, 5]).2.1⟩

/-- The error enum `DownloadChunkError` from `src/cache/downloader.rs`; payloads
that do not influence retry control flow (error messages, reqwest errors) are
dropped. `Ratelimited` carries the optional server-requested backoff seconds. -/
inductive DownloadChunkError
  | Ratelimited (hint : Option Nat)
  | FetchError
  | ResponseError (status : Nat) (retryable : Bool)
  | StreamError
  | IoError
  | TorboxError
  | GenericError
deriving Repr, DecidableEq

/-- Constant `RESPONSE_ERROR_RETRIES` from `src/cache/downloader.rs`. -/
def RESPONSE_ERROR_RETRIES : List Nat := [1, 5, 30]

/-- Constant `STREAM_ERROR_RETRIES` from `src/cache/downloader.rs`. -/
def STREAM_ERROR_RETRIES : List Nat := [5, 30]

/-- Constant `FETCH_ERROR_RETRIES` from `src/cache/downloader.rs`. -/
def FETCH_ERROR_RETRIES : List Nat := [5]

/-- The method `DownloadChunkError::get_backoff` from `src/cache/downloader.rs`.
Returns the seconds passed to `ratelimiter.set_ratelimited_for` (the side effect
inside the `Ratelimited` arms) and the backoff in seconds, `none` meaning the
error is not retried. `attempts` is 1-based, as in the caller's loop. -/
def get_backoff : DownloadChunkError → Nat → Option Nat × Option Nat
  | .Ratelimited (some seconds), _ => (some 5, some seconds)
  | .Ratelimited none, attempts => (some 5, RESPONSE_ERROR_RETRIES.get? (attempts - 1))
  | .FetchError, attempts => (none, FETCH_ERROR_RETRIES.get? (attempts - 1))
  | .ResponseError _ retryable, attempts =>
      (none, if retryable then RESPONSE_ERROR_RETRIES.get? (attempts - 1) else none)
  | .StreamError, attempts => (none, STREAM_ERROR_RETRIES.get? (attempts - 1))
  | .IoError, _ => (none, none)
  | .TorboxError, _ => (none, none)
  | .GenericError, _ => (none, none)

/-- The status dispatch in `download_contiguous_chunks_inner`: `206` proceeds
(`none`), `429` maps to `Ratelimited` with the parsed `x-ratelimit-after` header
falling back to `Retry-After` (the chosen header's value parsed as `u64`),
`408`/`502`/`503`/`504` are retryable response errors, and anything else is a
non-retryable response error. -/
def classify_status (status : Nat) (x_ratelimit_after retry_after : Option String) :
    Option DownloadChunkError :=
  if status = 206 then none
  else if status = 429 then
    some (.Ratelimited ((x_ratelimit_after <|> retry_after).bind String.toNat?))
  else if status = 408 ∨ status = 502 ∨ status = 503 ∨ status = 504 then
    some (.ResponseError status true)
  else some (.ResponseError status false)

/-- Outcome of one attempt of `download_contiguous_chunks_inner`, as scripted for
the retry-loop model. -/
inductive AttemptResult
  | success
  | failure (e : DownloadChunkError)
deriving Repr, DecidableEq

/-- One processed failure in the retry loop of `download_contiguous_chunks`:
the penalty seconds applied to the rate limiter and the backoff slept
(`none` = the error was fatal and the loop returned `Err`). -/
structure RetryStep where
  penalty : Option Nat
  backoff : Option Nat
deriving Repr, DecidableEq

/-- The retry loop of `download_contiguous_chunks` (`src/cache/downloader.rs`) over
a script of per-attempt outcomes: increment `attempts`, run the inner download; on
success return `Ok`; on failure consult `get_backoff` and either sleep the backoff
and retry, or return `Err`. Results: `some true` = `Ok`, `some false` = fatal
`Err`, `none` = the script ended while the loop would still retry. -/
def download_retry : List AttemptResult → Nat → List RetryStep × Option Bool
  | [], _ => ([], none)
  | .success :: _, _ => ([], some true)
  | .failure e :: rest, attempts =>
    let pb := get_backoff e (attempts + 1)
    match pb.2 with
    | some b =>
      let r := download_retry rest (attempts + 1)
      (⟨pb.1, some b⟩ :: r.1, r.2)
    | none => ([⟨pb.1, none⟩], some false)

/-- A run in which every failed attempt is a 429: the scripted outcomes are the
given rate-limit hints followed by a success. -/
def ratelimitedScript (hints : List (Option Nat)) : List AttemptResult :=
  (hints.map fun h => AttemptResult.failure (.Ratelimited h)) ++ [.success]

/-- Behaviour of the retry loop on an all-429 script, for any starting attempt
count `a`: every processed failure penalises the rate limiter by 5 s; the `j`-th
processed failure backs off by its hint if present, else by the attempt-indexed
entry of `[1, 5, 30]`; and the run fails fatally exactly when some unhinted 429
occurs at overall attempt index ≥ 3 (0-based), i.e. when the unhinted schedule is
exhausted. -/
theorem download_retry_ratelimited_spec :
    ∀ (hints : List (Option Nat)) (a : Nat),
      (∀ st ∈ (download_retry (ratelimitedScript hints) a).1, st.penalty = some 5) ∧
      (∀ j st, (download_retry (ratelimitedScript hints) a).1.get? j = some st →
        st.backoff = match hints.get? j with
          | some (some s) => some s
          | some none => RESPONSE_ERROR_RETRIES.get? (a + j)
          | none => none) ∧
      ((download_retry (ratelimitedScript hints) a).2 = some false ↔
        ∃ j, hints.get? j = some none ∧ 3 ≤ a + j) := by
  intro hints
  induction hints with
  | nil =>
    intro a
    refine ⟨by simp [ratelimitedScript, download_retry], ?_, ?_⟩
    · intro j st hst
      simp [ratelimitedScript, download_retry] at hst
    · simp [ratelimitedScript, download_retry]
  | cons h hints ih =>
    intro a
    have hscript : ratelimitedScript (h :: hints) =
        AttemptResult.failure (.Ratelimited h) :: ratelimitedScript hints := by
      simp [ratelimitedScript]
    cases h with
    | some s =>
      have hstep : download_retry (ratelimitedScript (some s :: hints)) a =
          (⟨some 5, some s⟩ :: (download_retry (ratelimitedScript hints) (a + 1)).1,
            (download_retry (ratelimitedScript hints) (a + 1)).2) := by
        rw [hscript, download_retry]
        rfl
      obtain ⟨ih1, ih2, ih3⟩ := ih (a + 1)
      rw [hstep]
      refine ⟨?_, ?_, ?_⟩
      · intro st hst
        rcases List.mem_cons.mp hst with rfl | hst
        · rfl
        · exact ih1 st hst
      · intro j st hst
        cases j with
        | zero =>
          rcases Option.some_inj.mp hst with rfl
          rfl
        | succ j2 =>
          have := ih2 j2 st (by simpa using hst)
          rw [this]
          have harith : a + 1 + j2 = a + (j2 + 1) := by omega
          simp [harith]
      · rw [ih3]
        constructor
        · rintro ⟨j, hj, hge⟩
          exact ⟨j + 1, by simpa using hj, by omega⟩
        · rintro ⟨j, hj, hge⟩
          cases j with
          | zero => simp at hj
          | succ j2 => exact ⟨j2, by simpa using hj, by omega⟩
    | none =>
      by_cases ha : a + 1 - 1 < 3
      · have hstep : download_retry (ratelimitedScript (none :: hints)) a =
            (⟨some 5, RESPONSE_ERROR_RETRIES.get? a⟩ ::
                (download_retry (ratelimitedScript hints) (a + 1)).1,
              (download_retry (ratelimitedScript hints) (a + 1)).2) := by
          rw [hscript, download_retry]
          simp only [get_backoff, Nat.add_sub_cancel]
          rw [List.get?_eq_get (show a < RESPONSE_ERROR_RETRIES.length by simpa using ha)]
        obtain ⟨ih1, ih2, ih3⟩ := ih (a + 1)
        rw [hstep]
        refine ⟨?_, ?_, ?_⟩
        · intro st hst
          rcases List.mem_cons.mp hst with rfl | hst
          · rfl
          · exact ih1 st hst
        · intro j st hst
          cases j with
          | zero =>
            rcases Option.some_inj.mp hst with rfl
            simp
          | succ j2 =>
            have := ih2 j2 st (by simpa using hst)
            rw [this]
            have harith : a + 1 + j2 = a + (j2 + 1) := by omega
            simp [harith]
        · rw [ih3]
          constructor
          · rintro ⟨j, hj, hge⟩
            exact ⟨j + 1, by simpa using hj, by omega⟩
          · rintro ⟨j, hj, hge⟩
            cases j with
            | zero => omega
            | succ j2 => exact ⟨j2, by simpa using hj, by omega⟩
      · have hget : RESPONSE_ERROR_RETRIES.get? (a + 1 - 1) = none :=
          List.get?_eq_none.mpr (by simpa using ha)
        have hstep : download_retry (ratelimitedScript (none :: hints)) a =
            ([⟨some 5, none⟩], some false) := by
          rw [hscript, download_retry]
          simp only [get_backoff]
          rw [hget]
        rw [hstep]
        refine ⟨?_, ?_, ?_⟩
        · intro st hst
          rcases List.mem_singleton.mp hst with rfl
          rfl
        · intro j st hst
          cases j with
          | zero =>
            rcases Option.some_inj.mp hst with rfl
            simpa using hget.symm
          | succ j2 => simp at hst
        · constructor
          · intro _
            exact ⟨0, by simp, by omega⟩
          · intro _
            rfl

/-- C6: every 429 maps to `Ratelimited` with the parsed header hint; each processed
429 penalises the rate limiter by 5 seconds; the backoff is the server hint when
present and otherwise 1, 5, 30 s for (1-based) attempts 1, 2, 3; and the download
fails fatally exactly when an unhinted 429 happens after the 1, 5, 30 schedule is
exhausted (at 1-based attempt 4 or later). -/
theorem c6_429_penalize_backoff_schedule (hints : List (Option Nat)) :
    (∀ x r, classify_status 429 x r =
      some (.Ratelimited ((x <|> r).bind String.toNat?))) ∧
    (∀ st ∈ (download_retry (ratelimitedScript hints) 0).1, st.penalty = some 5) ∧
    (∀ j st, (download_retry (ratelimitedScript hints) 0).1.get? j = some st →
      st.backoff = match hints.get? j with
        | some (some s) => some s
        | some none => RESPONSE_ERROR_RETRIES.get? j
        | none => none) ∧
    ((download_retry (ratelimitedScript hints) 0).2 = some false ↔
      ∃ j, hints.get? j = some none ∧ 3 ≤ j) := by
  obtain ⟨h1, h2, h3⟩ := download_retry_ratelimited_spec hints 0
  refine ⟨fun x r => rfl, h1, ?_, by simpa using h3⟩
  intro j st hst
  simpa using h2 j st hst

/-- C6 witness: with 429 responses hinted `none, 7 s, none, none`, the fourth 429
(attempt 4, unhinted schedule exhausted) makes the download fail fatally, and the
first processed failure penalises the rate limiter by 5 seconds. -/
theorem c6_429_witness :
    (download_retry (ratelimitedScript [none, some 7, none, none]) 0).2 = some false ∧
    RetryStep.penalty ⟨some 5, some 1⟩ = some 5 :=
  ⟨(c6_429_penalize_backoff_schedule [none, some 7, none, none]).2.2.2.mpr
      ⟨3, by decide, by decide⟩,
    (c6_429_penalize_backoff_schedule [none, some 7, none, none]).2.1
      ⟨some 5, some 1⟩ (by decide)⟩

end Lumin
